import Mathlib

/-!
Shallow embedding of `enhanced_enums.py` (class `EnhancedEnum(Enum)`).

An enumeration type is modelled as the declaration-ordered list of its
members; each member carries its `name` (a string) and its underlying
`value` (an element of an arbitrary type `V` with decidable equality).
The standard-library `Enum` machinery this class builds on is modelled
where the methods rely on it: iteration over the class yields the members
in declaration order, `cls[name]` looks a member up by exact name,
`list.index` returns the first index of an equal element, and
`_value2member_map_` is the value-keyed map built once at class-creation
time (a later member with an already-present value becomes an alias of
the earlier one and adds no new entry).
-/

namespace EnhancedEnums

/-- One member of an enumeration type: its `name` and its underlying
`value`. -/
structure Member (V : Type) where
  name : String
  value : V
deriving DecidableEq

/-- An enumeration type: its members, in declaration order. -/
structure EnhancedEnum (V : Type) where
  members : List (Member V)
deriving DecidableEq

/-- The failures raised by the two lookup constructors: a `ValueError`
carrying the offending name or the offending value. -/
inductive EnumError (V : Type) where
  | notFoundName (name : String)
  | notFoundValue (value : V)
deriving DecidableEq

/-- `EnhancedEnum.__str__`: `return self.name`. -/
def str {V : Type} (self : Member V) : String :=
  self.name

/-- `EnhancedEnum.list_all`: `list(cls)`, the members in declaration
order. -/
def list_all {V : Type} (cls : EnhancedEnum V) : List (Member V) :=
  cls.members

/-- `EnhancedEnum.as_tuple`: `tuple(member for member in cls)`. -/
def as_tuple {V : Type} (cls : EnhancedEnum V) : List (Member V) :=
  cls.members.map (fun member => member)

/-- The `_value2member_map_` maintained by the base `Enum` machinery: a
value-keyed map filled at class-creation time in declaration order; a
later member whose value is already a key becomes an alias and adds no
entry. -/
def value2member_map {V : Type} [DecidableEq V] (cls : EnhancedEnum V) :
    List (V × Member V) :=
  cls.members.foldl
    (fun acc member =>
      if acc.any (fun p => decide (p.1 = member.value)) then acc
      else acc ++ [(member.value, member)])
    []

/-- `EnhancedEnum.validate`: `return value in cls._value2member_map_`. -/
def validate {V : Type} [DecidableEq V] (cls : EnhancedEnum V) (value : V) :
    Bool :=
  (value2member_map cls).any (fun p => decide (p.1 = value))

/-- Python's `list.index`: the index of the first element equal to the
argument, `none` when no element is equal (Python raises `ValueError`
there). -/
def index_of {V : Type} [DecidableEq V] :
    List (Member V) → Member V → Option Nat
  | [], _ => none
  | x :: rest, m =>
      if x = m then some 0 else (index_of rest m).map (fun i => i + 1)

/-- `EnhancedEnum.next`: `members = list(self.__class__); index =
members.index(self) + 1; if index >= len(members): index = 0; return
members[index]`. -/
def next {V : Type} [DecidableEq V] (cls : EnhancedEnum V)
    (self : Member V) : Option (Member V) :=
  let members := cls.members
  match index_of members self with
  | none => none
  | some i =>
      let index := i + 1
      let index := if index ≥ members.length then 0 else index
      members[index]?

/-- `EnhancedEnum.previous`: `members = list(self.__class__); index =
members.index(self) - 1; if index < 0: index = len(members) - 1; return
members[index]`. -/
def previous {V : Type} [DecidableEq V] (cls : EnhancedEnum V)
    (self : Member V) : Option (Member V) :=
  let members := cls.members
  match index_of members self with
  | none => none
  | some i =>
      let index : Int := (i : Int) - 1
      let index : Int :=
        if index < 0 then (members.length : Int) - 1 else index
      members[index.toNat]?

/-- `EnhancedEnum.from_string`: `cls[name]` — exact, case-sensitive name
lookup in the member map — with `KeyError` re-raised as a `ValueError`
carrying the name. -/
def from_string {V : Type} (cls : EnhancedEnum V) (name : String) :
    Except (EnumError V) (Member V) :=
  match cls.members.find? (fun m => m.name == name) with
  | some m => Except.ok m
  | none => Except.error (EnumError.notFoundName name)

/-- The `for member in cls` loop of `EnhancedEnum.from_value`: return the
first member whose value equals the argument, else raise a `ValueError`
carrying the value. -/
def from_value_loop {V : Type} [DecidableEq V] :
    List (Member V) → V → Except (EnumError V) (Member V)
  | [], value => Except.error (EnumError.notFoundValue value)
  | member :: rest, value =>
      if member.value = value then Except.ok member
      else from_value_loop rest value

/-- `EnhancedEnum.from_value`. -/
def from_value {V : Type} [DecidableEq V] (cls : EnhancedEnum V)
    (value : V) : Except (EnumError V) (Member V) :=
  from_value_loop cls.members value

/-- The concrete example enumeration used throughout the documentation:
`Color = {RED: 1, GREEN: 2, BLUE: 3}` in declaration order RED, GREEN,
BLUE. -/
def RED : Member Int := ⟨"RED", 1⟩

def GREEN : Member Int := ⟨"GREEN", 2⟩

def BLUE : Member Int := ⟨"BLUE", 3⟩

def Color : EnhancedEnum Int := ⟨[RED, GREEN, BLUE]⟩

example : from_string Color "GREEN" = Except.ok GREEN := rfl
example : from_string Color "YELLOW"
    = Except.error (EnumError.notFoundName "YELLOW") := rfl
example : from_value Color 3 = Except.ok BLUE := rfl
example : from_value Color 99
    = Except.error (EnumError.notFoundValue 99) := rfl
example : next Color RED = some GREEN := rfl
example : previous Color RED = some BLUE := by decide
example : next Color BLUE = some RED := by decide
example : validate Color 2 = true := by decide
example : validate Color 42 = false := by decide
example : list_all Color = [RED, GREEN, BLUE] := by decide
example : as_tuple Color = [RED, GREEN, BLUE] := by decide
example : str RED = "RED" := by decide

/-! ### Helper lemmas -/

/-- Success of the `from_value` loop is a first-match: the returned member
splits the list into a prefix with no matching value, the member itself,
and a suffix. -/
theorem from_value_loop_ok_first {V : Type} [DecidableEq V] :
    ∀ (l : List (Member V)) (v : V) (m : Member V),
      from_value_loop l v = Except.ok m →
      ∃ l1 l2, l = l1 ++ m :: l2 ∧ m.value = v ∧ ∀ x ∈ l1, x.value ≠ v
  | [], v, m => by simp [from_value_loop]
  | x :: rest, v, m => by
      by_cases hx : x.value = v
      · intro h
        simp only [from_value_loop, if_pos hx, Except.ok.injEq] at h
        exact ⟨[], rest, by simp [h], h ▸ hx, by simp⟩
      · intro h
        simp only [from_value_loop, if_neg hx] at h
        obtain ⟨l1, l2, hsplit, hval, hpre⟩ :=
          from_value_loop_ok_first rest v m h
        exact ⟨x :: l1, l2, by simp [hsplit], hval, by
          intro y hy
          rcases List.mem_cons.mp hy with hy | hy
          · exact hy ▸ hx
          · exact hpre y hy⟩

/-- When no member value matches, the `from_value` loop raises. -/
theorem from_value_loop_err {V : Type} [DecidableEq V] :
    ∀ (l : List (Member V)) (v : V), (∀ x ∈ l, x.value ≠ v) →
      from_value_loop l v = Except.error (EnumError.notFoundValue v)
  | [], v, _ => rfl
  | x :: rest, v, h => by
      have hx : ¬x.value = v := h x (List.mem_cons_self x rest)
      simp only [from_value_loop, if_neg hx]
      exact from_value_loop_err rest v fun y hy => h y (List.mem_cons_of_mem x hy)

/-- When some member value matches, the `from_value` loop succeeds. -/
theorem from_value_loop_exists_ok {V : Type} [DecidableEq V] :
    ∀ (l : List (Member V)) (v : V), (∃ x ∈ l, x.value = v) →
      ∃ m, from_value_loop l v = Except.ok m
  | [], v, h => by simp at h
  | x :: rest, v, h => by
      by_cases hx : x.value = v
      · exact ⟨x, by simp [from_value_loop, if_pos hx]⟩
      · obtain ⟨y, hy, hyv⟩ := h
        rcases List.mem_cons.mp hy with hy | hy
        · exact absurd (hy ▸ hyv) hx
        · obtain ⟨m, hm⟩ := from_value_loop_exists_ok rest v ⟨y, hy, hyv⟩
          exact ⟨m, by simp [from_value_loop, if_neg hx, hm]⟩

/-- With pairwise-distinct member values, the `from_value` loop applied to
a member's own value returns that member. -/
theorem from_value_loop_self {V : Type} [DecidableEq V] :
    ∀ (l : List (Member V)), (l.map Member.value).Nodup →
      ∀ m ∈ l, from_value_loop l m.value = Except.ok m
  | [], _, m, hm => by simp at hm
  | x :: rest, hnd, m, hm => by
      rcases List.mem_cons.mp hm with hm | hm
      · subst hm
        simp [from_value_loop]
      · have hnd2 : (∀ y ∈ rest, ¬Member.value y = x.value) ∧
            (rest.map Member.value).Nodup := by simpa using hnd
        have hx : ¬x.value = m.value := fun he => hnd2.1 m hm he.symm
        simp only [from_value_loop, if_neg hx]
        exact from_value_loop_self rest hnd2.2 m hm

/-- With pairwise-distinct member names, name lookup applied to a member's
own name returns that member. -/
theorem find?_name_self {V : Type} :
    ∀ (l : List (Member V)), (l.map Member.name).Nodup →
      ∀ m ∈ l, l.find? (fun x => x.name == m.name) = some m
  | [], _, m, hm => by simp at hm
  | x :: rest, hnd, m, hm => by
      rcases List.mem_cons.mp hm with hm | hm
      · subst hm
        simp [List.find?]
      · have hnd2 : (∀ y ∈ rest, ¬Member.name y = x.name) ∧
            (rest.map Member.name).Nodup := by simpa using hnd
        have hx : ¬x.name = m.name := fun he => hnd2.1 m hm he.symm
        have hbeq : (x.name == m.name) = false := by
          simpa using hx
        simp only [List.find?, hbeq]
        exact find?_name_self rest hnd2.2 m hm

/-- Key membership in the `_value2member_map_` fold: a value is a key of
the accumulated map exactly when it is a key of the accumulator or the
value of some member still to be folded in. -/
theorem v2m_foldl_any {V : Type} [DecidableEq V] :
    ∀ (l : List (Member V)) (acc : List (V × Member V)) (v : V),
      ((l.foldl
          (fun acc member =>
            if acc.any (fun p => decide (p.1 = member.value)) then acc
            else acc ++ [(member.value, member)]) acc).any
        (fun p => decide (p.1 = v)) = true)
      ↔ (acc.any (fun p => decide (p.1 = v)) = true ∨ ∃ m ∈ l, m.value = v)
  | [], acc, v => by simp
  | x :: rest, acc, v => by
      rw [List.foldl_cons]
      by_cases hx : acc.any (fun p => decide (p.1 = x.value)) = true
      · rw [if_pos hx, v2m_foldl_any rest acc v]
        constructor
        · rintro (h | ⟨m, hm, hv⟩)
          · exact Or.inl h
          · exact Or.inr ⟨m, List.mem_cons_of_mem x hm, hv⟩
        · rintro (h | ⟨m, hm, hv⟩)
          · exact Or.inl h
          · rcases List.mem_cons.mp hm with rfl | hm
            · rw [hv] at hx
              exact Or.inl hx
            · exact Or.inr ⟨m, hm, hv⟩
      · rw [if_neg hx, v2m_foldl_any rest (acc ++ [(x.value, x)]) v]
        simp only [List.any_append, List.any_cons, List.any_nil,
          Bool.or_false, Bool.or_eq_true, decide_eq_true_eq]
        constructor
        · rintro ((h | h) | ⟨m, hm, hv⟩)
          · exact Or.inl h
          · exact Or.inr ⟨x, List.mem_cons_self x rest, h⟩
          · exact Or.inr ⟨m, List.mem_cons_of_mem x hm, hv⟩
        · rintro (h | ⟨m, hm, hv⟩)
          · exact Or.inl (Or.inl h)
          · rcases List.mem_cons.mp hm with rfl | hm
            · exact Or.inl (Or.inr hv)
            · exact Or.inr ⟨m, hm, hv⟩

/-- `list.index` on a duplicate-free list applied to the element at
position `i` returns `i`. -/
theorem index_of_get {V : Type} [DecidableEq V] :
    ∀ (l : List (Member V)), l.Nodup → ∀ (i : Nat) (hi : i < l.length),
      index_of l (l.get ⟨i, hi⟩) = some i
  | [], _, i, hi => by simp at hi
  | x :: rest, _, 0, hi => by simp [index_of]
  | x :: rest, hnd, i + 1, hi => by
      have hnd2 : x ∉ rest ∧ rest.Nodup := List.nodup_cons.mp hnd
      have hget : (x :: rest).get ⟨i + 1, hi⟩
          = rest.get ⟨i, by simpa using hi⟩ := rfl
      have hx : ¬x = (x :: rest).get ⟨i + 1, hi⟩ := by
        rw [hget]
        intro he
        rw [he] at hnd2
        exact hnd2.1 (List.get_mem rest i _)
      rw [index_of, if_neg hx, hget,
        index_of_get rest hnd2.2 i (by simpa using hi)]
      rfl

/-- Reduction of `next` once the member index is known. -/
theorem next_eq_of_index {V : Type} [DecidableEq V] (cls : EnhancedEnum V)
    (self : Member V) (i : Nat) (h : index_of cls.members self = some i) :
    next cls self
      = cls.members[if i + 1 ≥ cls.members.length then 0 else i + 1]? := by
  unfold next
  simp only [h]

/-- Reduction of `previous` once the member index is known. -/
theorem previous_eq_of_index {V : Type} [DecidableEq V] (cls : EnhancedEnum V)
    (self : Member V) (i : Nat) (h : index_of cls.members self = some i) :
    previous cls self
      = cls.members[(if (i : Int) - 1 < 0 then (cls.members.length : Int) - 1
          else (i : Int) - 1).toNat]? := by
  unfold previous
  simp only [h]

/-- An optional list access hitting a valid position, stated with an
index rewritten by a side equation. -/
theorem getElem?_eq_some_get {V : Type} (l : List (Member V)) (i j : Nat)
    (hj : j < l.length) (hij : i = j) : l[i]? = some (l.get ⟨j, hj⟩) := by
  subst hij
  rw [List.getElem?_eq_getElem hj]
  simp [List.get_eq_getElem]

/-- `next` at the member in position `i` returns the member in position
`(i + 1) % n`. -/
theorem next_get {V : Type} [DecidableEq V] (cls : EnhancedEnum V)
    (hnd : cls.members.Nodup) (i : Nat) (hi : i < cls.members.length)
    (hj : (i + 1) % cls.members.length < cls.members.length) :
    next cls (cls.members.get ⟨i, hi⟩)
      = some (cls.members.get ⟨(i + 1) % cls.members.length, hj⟩) := by
  rw [next_eq_of_index cls _ i (index_of_get cls.members hnd i hi)]
  by_cases hc : i + 1 ≥ cls.members.length
  · have hmod : (i + 1) % cls.members.length = 0 := by
      have hlen : i + 1 = cls.members.length := by omega
      rw [hlen, Nat.mod_self]
    rw [if_pos hc]
    exact getElem?_eq_some_get _ 0 _ hj hmod.symm
  · have hmod : (i + 1) % cls.members.length = i + 1 :=
      Nat.mod_eq_of_lt (by omega)
    rw [if_neg hc]
    exact getElem?_eq_some_get _ (i + 1) _ hj hmod.symm

/-- `previous` at the member in position `i` returns the member in
position `(i + n - 1) % n`. -/
theorem previous_get {V : Type} [DecidableEq V] (cls : EnhancedEnum V)
    (hnd : cls.members.Nodup) (i : Nat) (hi : i < cls.members.length)
    (hk : (i + cls.members.length - 1) % cls.members.length
        < cls.members.length) :
    previous cls (cls.members.get ⟨i, hi⟩)
      = some (cls.members.get
          ⟨(i + cls.members.length - 1) % cls.members.length, hk⟩) := by
  rw [previous_eq_of_index cls _ i (index_of_get cls.members hnd i hi)]
  by_cases hc : (i : Int) - 1 < 0
  · have hi0 : i = 0 := by omega
    subst hi0
    have ht : ((cls.members.length : Int) - 1).toNat
        = cls.members.length - 1 := by omega
    have hmod : (0 + cls.members.length - 1) % cls.members.length
        = cls.members.length - 1 := by
      have h0 : 0 + cls.members.length - 1 = cls.members.length - 1 := by
        omega
      rw [h0]
      exact Nat.mod_eq_of_lt (by omega)
    rw [if_pos hc, ht]
    exact getElem?_eq_some_get _ (cls.members.length - 1) _ hk hmod.symm
  · have ht : ((i : Int) - 1).toNat = i - 1 := by omega
    have hmod : (i + cls.members.length - 1) % cls.members.length
        = i - 1 := by
      have h1 : i + cls.members.length - 1
          = (i - 1) + cls.members.length := by omega
      rw [h1, Nat.add_mod_right]
      exact Nat.mod_eq_of_lt (by omega)
    rw [if_neg hc, ht]
    exact getElem?_eq_some_get _ (i - 1) _ hk hmod.symm

/-- `validate` is true exactly on the member values. -/
theorem validate_true_iff {V : Type} [DecidableEq V] (cls : EnhancedEnum V)
    (v : V) : validate cls v = true ↔ ∃ m ∈ cls.members, m.value = v := by
  unfold validate value2member_map
  rw [v2m_foldl_any]
  simp

/-! ### Claim theorems -/

/-- C1: for every enumeration type and every input value, `from_value`
returns the first member in declaration order whose underlying value
equals the given value, and fails with a `NotFound`-kind error carrying
the offending value when no member's value equals it. -/
theorem from_value_spec {V : Type} [DecidableEq V] (cls : EnhancedEnum V)
    (v : V) :
    (∀ m, from_value cls v = Except.ok m →
      ∃ l1 l2, cls.members = l1 ++ m :: l2 ∧ m.value = v ∧
        ∀ x ∈ l1, x.value ≠ v) ∧
    ((∃ m ∈ cls.members, m.value = v) →
      ∃ m, from_value cls v = Except.ok m) ∧
    ((∀ m ∈ cls.members, m.value ≠ v) →
      from_value cls v = Except.error (EnumError.notFoundValue v)) :=
  ⟨fun m h => from_value_loop_ok_first cls.members v m h,
   fun h => from_value_loop_exists_ok cls.members v h,
   fun h => from_value_loop_err cls.members v h⟩

theorem from_value_spec_witness :
    from_value Color 99 = Except.error (EnumError.notFoundValue 99) :=
  (from_value_spec Color 99).2.2 (by decide)

/-- C2: for every enumeration type and every input name, `from_string`
returns the member whose name is an exact, case-sensitive match of the
input, and fails with a `NotFound`-kind error carrying the offending name
when no member has that name; it never falls back to partial or
case-insensitive matching. -/
theorem from_string_spec {V : Type} (cls : EnhancedEnum V) (s : String) :
    (∀ m, from_string cls s = Except.ok m → m ∈ cls.members ∧ m.name = s) ∧
    ((∃ m ∈ cls.members, m.name = s) →
      ∃ m, from_string cls s = Except.ok m) ∧
    ((∀ m ∈ cls.members, m.name ≠ s) →
      from_string cls s = Except.error (EnumError.notFoundName s)) := by
  refine ⟨?_, ?_, ?_⟩
  · intro m h
    unfold from_string at h
    cases hf : cls.members.find? (fun x => x.name == s) with
    | none => rw [hf] at h; exact absurd h (by simp)
    | some m2 =>
        rw [hf] at h
        have hm2 : m2 = m := by simpa using h
        subst hm2
        refine ⟨List.mem_of_find?_eq_some hf, ?_⟩
        have hp := List.find?_some hf
        simpa using hp
  · rintro ⟨m, hm, hname⟩
    cases hf : cls.members.find? (fun x => x.name == s) with
    | none =>
        have hnone := List.find?_eq_none.mp hf m hm
        simp [hname] at hnone
    | some m2 => exact ⟨m2, by unfold from_string; rw [hf]⟩
  · intro h
    have hf : cls.members.find? (fun x => x.name == s) = none :=
      List.find?_eq_none.mpr fun x hx => by simpa using h x hx
    unfold from_string
    rw [hf]

theorem from_string_spec_witness :
    from_string Color "YELLOW"
      = Except.error (EnumError.notFoundName "YELLOW") :=
  (from_string_spec Color "YELLOW").2.2 (by decide)

/-- C3: for every member `m` of an enumeration type whose member values
are pairwise distinct (and whose member names are distinct, as the base
enumeration facility guarantees), `from_string` applied to `m`'s name
returns `m`, and `from_value` applied to `m`'s value returns `m`. -/
theorem round_trip_spec {V : Type} [DecidableEq V] (cls : EnhancedEnum V)
    (hnames : (cls.members.map Member.name).Nodup)
    (hvalues : (cls.members.map Member.value).Nodup)
    (m : Member V) (hm : m ∈ cls.members) :
    from_string cls m.name = Except.ok m ∧
    from_value cls m.value = Except.ok m := by
  constructor
  · unfold from_string
    rw [find?_name_self cls.members hnames m hm]
  · exact from_value_loop_self cls.members hvalues m hm

theorem round_trip_spec_witness :
    from_string Color GREEN.name = Except.ok GREEN ∧
    from_value Color GREEN.value = Except.ok GREEN :=
  round_trip_spec Color (by decide) (by decide) GREEN (by decide)

/-- C4: for every enumeration type and every input value `v`,
`validate v` returns true if and only if `v` equals the underlying value
of some member, and returns false otherwise. -/
theorem validate_spec {V : Type} [DecidableEq V] (cls : EnhancedEnum V)
    (v : V) :
    validate cls v = true ↔ ∃ m ∈ cls.members, m.value = v :=
  validate_true_iff cls v

/-- C5: `validate` is total: for every input value it returns a boolean
and never fails; an unmatched value yields a normal `false` result rather
than an error. -/
theorem validate_total_spec {V : Type} [DecidableEq V]
    (cls : EnhancedEnum V) (v : V) :
    (validate cls v = true ∨ validate cls v = false) ∧
    ((∀ m ∈ cls.members, m.value ≠ v) → validate cls v = false) := by
  constructor
  · cases h : validate cls v
    · exact Or.inr rfl
    · exact Or.inl rfl
  · intro h
    have hnot : ¬validate cls v = true := by
      rw [validate_true_iff]
      rintro ⟨m, hm, hv⟩
      exact h m hm hv
    simpa using hnot

theorem validate_total_spec_witness : validate Color 42 = false :=
  (validate_total_spec Color 42).2 (by decide)

/-- C6: for every non-empty enumeration type, `next` and `previous` are
defined for every member; `next` of the member at the last position is
the first member, `previous` of the member at the first position is the
last member (cyclic wraparound), and otherwise they return the
immediately following, respectively preceding, member in declaration
order: position `i` is sent to `(i + 1) % n` by `next` and to
`(i + n - 1) % n` by `previous`. -/
theorem next_previous_order_spec {V : Type} [DecidableEq V]
    (cls : EnhancedEnum V)
    (hnames : (cls.members.map Member.name).Nodup)
    (i : Nat) (hi : i < cls.members.length)
    (hj : (i + 1) % cls.members.length < cls.members.length)
    (hk : (i + cls.members.length - 1) % cls.members.length
        < cls.members.length) :
    next cls (cls.members.get ⟨i, hi⟩)
      = some (cls.members.get ⟨(i + 1) % cls.members.length, hj⟩) ∧
    previous cls (cls.members.get ⟨i, hi⟩)
      = some (cls.members.get
          ⟨(i + cls.members.length - 1) % cls.members.length, hk⟩) :=
  ⟨next_get cls (List.Nodup.of_map Member.name hnames) i hi hj,
   previous_get cls (List.Nodup.of_map Member.name hnames) i hi hk⟩

theorem next_previous_order_spec_witness :
    next Color BLUE = some RED ∧ previous Color BLUE = some GREEN := by
  have h := next_previous_order_spec Color (by decide) 2 (by decide)
    (by decide) (by decide)
  exact ⟨h.1, h.2⟩

/-- List access at two provably equal positions. -/
theorem get_index_congr {V : Type} (l : List (Member V)) (a b : Nat)
    (ha : a < l.length) (hb : b < l.length) (hab : a = b) :
    l.get ⟨a, ha⟩ = l.get ⟨b, hb⟩ := by
  subst hab
  rfl

/-- C7: for every member `m` of a non-empty enumeration type,
`m.next().previous() == m` and `m.previous().next() == m`. -/
theorem next_previous_inverse_spec {V : Type} [DecidableEq V]
    (cls : EnhancedEnum V)
    (hnames : (cls.members.map Member.name).Nodup)
    (m : Member V) (hm : m ∈ cls.members) :
    (next cls m).bind (previous cls) = some m ∧
    (previous cls m).bind (next cls) = some m := by
  have hnd : cls.members.Nodup := List.Nodup.of_map Member.name hnames
  obtain ⟨⟨i, hi⟩, rfl⟩ := List.mem_iff_get.mp hm
  have hpos : 0 < cls.members.length := by omega
  have hj : (i + 1) % cls.members.length < cls.members.length :=
    Nat.mod_lt _ hpos
  have hk : ((i + 1) % cls.members.length + cls.members.length - 1)
      % cls.members.length < cls.members.length := Nat.mod_lt _ hpos
  have hk2 : (i + cls.members.length - 1) % cls.members.length
      < cls.members.length := Nat.mod_lt _ hpos
  have hj2 : ((i + cls.members.length - 1) % cls.members.length + 1)
      % cls.members.length < cls.members.length := Nat.mod_lt _ hpos
  constructor
  · rw [next_get cls hnd i hi hj]
    show previous cls (cls.members.get ⟨(i + 1) % cls.members.length, hj⟩)
      = some (cls.members.get ⟨i, hi⟩)
    rw [previous_get cls hnd _ hj hk]
    have harith : ((i + 1) % cls.members.length + cls.members.length - 1)
        % cls.members.length = i := by
      by_cases hc : i + 1 = cls.members.length
      · rw [hc, Nat.mod_self]
        have h0 : 0 + cls.members.length - 1 = i := by omega
        rw [h0]
        exact Nat.mod_eq_of_lt hi
      · rw [Nat.mod_eq_of_lt (show i + 1 < cls.members.length by omega)]
        have h1 : i + 1 + cls.members.length - 1
            = i + cls.members.length := by omega
        rw [h1, Nat.add_mod_right]
        exact Nat.mod_eq_of_lt hi
    exact congrArg some (get_index_congr cls.members _ i hk hi harith)
  · rw [previous_get cls hnd i hi hk2]
    show next cls (cls.members.get
        ⟨(i + cls.members.length - 1) % cls.members.length, hk2⟩)
      = some (cls.members.get ⟨i, hi⟩)
    rw [next_get cls hnd _ hk2 hj2]
    have harith2 : ((i + cls.members.length - 1) % cls.members.length + 1)
        % cls.members.length = i := by
      by_cases hc : i = 0
      · subst hc
        have h0 : 0 + cls.members.length - 1 = cls.members.length - 1 := by
          omega
        have hin : (cls.members.length - 1) % cls.members.length
            = cls.members.length - 1 := Nat.mod_eq_of_lt (by omega)
        have h1 : cls.members.length - 1 + 1 = cls.members.length := by
          omega
        rw [h0, hin, h1, Nat.mod_self]
      · have h1 : i + cls.members.length - 1
            = (i - 1) + cls.members.length := by omega
        rw [h1, Nat.add_mod_right,
          Nat.mod_eq_of_lt (show i - 1 < cls.members.length by omega)]
        have h2 : i - 1 + 1 = i := by omega
        rw [h2]
        exact Nat.mod_eq_of_lt hi
    exact congrArg some (get_index_congr cls.members _ i hj2 hi harith2)

theorem next_previous_inverse_spec_witness :
    (next Color RED).bind (previous Color) = some RED ∧
    (previous Color RED).bind (next Color) = some RED :=
  next_previous_inverse_spec Color (by decide) RED (by decide)

/-- C8: `list_all` returns exactly the members in declaration order, and
`as_tuple` returns the same elements in the same order; both are pure
functions of the enumeration type, hence deterministic, returning
identical results on every call. -/
theorem list_all_as_tuple_spec {V : Type} (cls : EnhancedEnum V) :
    list_all cls = cls.members ∧ as_tuple cls = list_all cls := by
  refine ⟨rfl, ?_⟩
  unfold as_tuple list_all
  simp

/-- C9: the display operation (string conversion) returns exactly the
member's name, with no qualification or decoration; it is a pure total
function, so it has no side effects and never fails. -/
theorem str_spec {V : Type} (m : Member V) : str m = m.name := rfl

/-- C10: `validate` returns true exactly when `from_value` succeeds: the
boolean membership check and the value-based constructor agree on which
values are in the enumeration. -/
theorem validate_from_value_agree_spec {V : Type} [DecidableEq V]
    (cls : EnhancedEnum V) (v : V) :
    validate cls v = true ↔ ∃ m, from_value cls v = Except.ok m := by
  rw [validate_true_iff]
  constructor
  · exact fun h => from_value_loop_exists_ok cls.members v h
  · rintro ⟨m, hm⟩
    obtain ⟨l1, l2, hsplit, hval, hpre⟩ :=
      from_value_loop_ok_first cls.members v m hm
    refine ⟨m, ?_, hval⟩
    rw [hsplit]
    simp

end EnhancedEnums
